import Mathlib

/-!
Shallow embedding of the schema-fns composition engine (src/schema.js):
the handler contract, the pipeline executor `validationPipeline`, the
schema-as-handler wrapper, the `key` and `items` combinators, `assert`
with its `ValidationError` formatting, and the async executor
`validationPipelineAsync`.

Modelling choices:
* JS values are modelled by the inductive `JSValue`; numbers are modelled
  as integers (every value the engine's claims exercise is integral).
* A handler is modelled as a function from the value it is called with to
  the ordered list of `update`/`error` callback invocations it performs;
  a handler can observe nothing else (the callbacks return `undefined`),
  so this captures every deterministic, contract-obeying handler.
* Handler-thrown faults (e.g. member access on `null`/`undefined`,
  spreading a non-iterable) abort the whole invocation per spec §4.2 and
  are outside the recoverable-error semantics modelled here; the access
  helpers below are total and return `undef` outside their JS domain.
* In the source, `execValidationPipeline`'s `update`/`error` parameters
  are shadowed by its hoisted local function declarations, so the
  executor is self-contained and takes only the input.
-/

namespace SchemaFns

inductive JSValue where
  | null
  | undef
  | bool (b : Bool)
  | num (n : Int)
  | str (s : String)
  | arr (elems : List JSValue)
  | obj (fields : List (String × JSValue))

/-- Path segments are the JS values `key`/`items` prepend: field names and indices. -/
inductive Seg where
  | name (s : String)
  | idx (n : Nat)
deriving DecidableEq

/-- The context object a handler passes to `error`: an optional `path`
plus the remaining fields (assoc list with unique keys; `code` and `path`
are modelled apart, matching the engine's special treatment of them). -/
structure ErrContext where
  path : Option (List Seg)
  extra : List (String × JSValue)

/-- A fully-formed error record as stored by the executor's `error` closure. -/
structure ErrRecord where
  code : String
  path : List Seg
  extra : List (String × JSValue)

/-- One callback invocation performed by a handler, in order. -/
inductive HEvent where
  | update (v : JSValue)
  | error (code : String) (ctx : ErrContext)

abbrev Handler := JSValue → List HEvent

def lookupField : List (String × JSValue) → String → Option JSValue
  | [], _ => none
  | (k, v) :: rest, nm => if k = nm then some v else lookupField rest nm

/-- Object spread update `{...value, [name]: x}` on the field list: an
existing key keeps its position, a new key is appended. -/
def setAssoc : List (String × JSValue) → String → JSValue → List (String × JSValue)
  | [], nm, x => [(nm, x)]
  | (k, v) :: rest, nm, x =>
      if k = nm then (k, x) :: rest else (k, v) :: setAssoc rest nm x

/-- Member access `value[name]`. -/
def jsGet (v : JSValue) (nm : String) : JSValue :=
  match v with
  | .obj fields => (lookupField fields nm).getD .undef
  | _ => (.undef)

/-- Spread rebuild `{...value, [name]: x}`; spreading a non-object
contributes no fields. -/
def jsSetField (v : JSValue) (nm : String) (x : JSValue) : JSValue :=
  match v with
  | .obj fields => .obj (setAssoc fields nm x)
  | _ => .obj [(nm, x)]

/-- Effect of one callback invocation on the executor's local state:
`update` overwrites the current value, `error` appends the record
`{code, path: [], ...context}` (a `path` in the context overrides the
empty default). -/
def applyEvent : JSValue × List ErrRecord → HEvent → JSValue × List ErrRecord
  | (_, errs), .update newValue => (newValue, errs)
  | (v, errs), .error code ctx =>
      (v, errs ++ [{ code := code, path := ctx.path.getD [], extra := ctx.extra }])

/-- The executor's `for (const fn of functions)` loop: each handler is
invoked once, in list order, on the current value, and its callback
invocations are applied in order. -/
def execLoop : List Handler → JSValue × List ErrRecord → JSValue × List ErrRecord
  | [], st => st
  | fn :: rest, st => execLoop rest ((fn st.1).foldl applyEvent st)

structure PipelineResult where
  value : JSValue
  valid : Bool
  errors : List ErrRecord

/-- `validationPipeline(...functions)(input)`: fresh accumulator and value
binding, run all handlers, then assemble `{value, valid, errors}` with
`valid = !Boolean(errors.length)`. -/
def validationPipeline (fns : List Handler) (input : JSValue) : PipelineResult :=
  let st := execLoop fns (input, [])
  { value := st.1, valid := st.2.isEmpty, errors := st.2 }

/-- The schema unit used as a handler (src/schema.js lines 21-28): run the
internal pipeline, forward each produced error with its `code` stripped
from the record and re-attached (the rest, `path` included, travels as the
context), then forward the final value to the caller's `update`. -/
def schemaHandler (fns : List Handler) : Handler := fun value =>
  let r := validationPipeline fns value
  (r.errors.map fun e => HEvent.error e.code { path := some e.path, extra := e.extra })
    ++ [HEvent.update r.value]

/-- `key(name, ...fns)`: read `value[name]`, run the nested schema on it;
`keyUpdate` rebuilds the outer object with `name` rebound, `keyError`
prepends `name` to the front of the context's path. -/
def keyHandler (nm : String) (fns : List Handler) : Handler := fun value =>
  (schemaHandler fns (jsGet value nm)).map fun ev =>
    match ev with
    | .update newKeyValue => .update (jsSetField value nm newKeyValue)
    | .error code ctx => .error code { ctx with path := some (.name nm :: ctx.path.getD []) }

/-- Sequence length as read by `index < items.length`; values without a
numeric `length` compare false, so the loop never starts on them. -/
def jsLen : JSValue → Nat
  | .arr l => l.length
  | .str s => s.length
  | _ => 0

/-- Element read `items[index]`. -/
def jsIdx : JSValue → Nat → JSValue
  | .arr l, i => l.getD i .undef
  | .str s, i =>
      match s.data.get? i with
      | some c => .str (String.mk [c])
      | none => .undef
  | _, _ => (.undef)

/-- Iterable spread `[...items]` for the sequences the loop accepts. -/
def jsToElems : JSValue → List JSValue
  | .arr l => l
  | .str s => s.data.map fun c => JSValue.str (String.mk [c])
  | _ => []

/-- `itemUpdate`'s copy-on-write: `newValue = [...items]; newValue[index] = x`. -/
def jsSetIdx (v : JSValue) (i : Nat) (x : JSValue) : JSValue :=
  .arr ((jsToElems v).set i x)

/-- Effect of one nested-schema callback during the `items` iteration at
`index`: `itemUpdate` replaces slot `index` in a copy, emits the outer
update, and rebinds the loop's `items`; `itemError` prepends `index`. -/
def itemsApplyEvent (index : Nat) : JSValue × List HEvent → HEvent → JSValue × List HEvent
  | (items, out), .update newItemValue =>
      let newValue := jsSetIdx items index newItemValue
      (newValue, out ++ [.update newValue])
  | (items, out), .error code ctx =>
      (items, out ++ [.error code { ctx with path := some (.idx index :: ctx.path.getD []) }])

/-- The `while (index < items.length)` loop of `items`. The fuel argument
only bounds the iteration count; since every `itemUpdate` replaces one
slot of a same-length copy, the length never changes and the initial
length is exactly enough fuel. -/
def itemsLoop (fns : List Handler) : Nat → JSValue → Nat → List HEvent
  | 0, _, _ => []
  | fuel + 1, items, index =>
      if index < jsLen items then
        let step := (schemaHandler fns (jsIdx items index)).foldl (itemsApplyEvent index) (items, [])
        step.2 ++ itemsLoop fns fuel step.1 (index + 1)
      else []

/-- `items(...fns)` as a handler. -/
def itemsHandler (fns : List Handler) : Handler := fun value =>
  itemsLoop fns (jsLen value) value 0

/-- `execValidationPipelineAsync`'s loop: identical to the synchronous
loop except each handler invocation is awaited before the next begins;
with deterministic handlers the awaited promise resolves to the same
callback sequence, so sequencing is modelled by the `Id` monad's bind. -/
def execLoopAsync : List Handler → JSValue × List ErrRecord → Id (JSValue × List ErrRecord)
  | [], st => pure st
  | fn :: rest, st => do
      let evs ← (pure (fn st.1) : Id (List HEvent))
      execLoopAsync rest (evs.foldl applyEvent st)

/-- `validationPipelineAsync(...functions)(input)` (src/schema.js lines 196-221). -/
def validationPipelineAsync (fns : List Handler) (input : JSValue) : Id PipelineResult := do
  let st ← execLoopAsync fns (input, [])
  pure { value := st.1, valid := st.2.isEmpty, errors := st.2 }

mutual

/-- Template-literal rendering of a JS value, as used by `formatError`;
inside an array join, `null` and `undefined` render as the empty string. -/
def jsToString : JSValue → String
  | .null => "null"
  | .undef => "undefined"
  | .bool b => cond b "true" "false"
  | .num n => toString n
  | .str s => s
  | .arr l => jsArrJoin l
  | .obj _ => "[object Object]"

def jsArrJoin : List JSValue → String
  | [] => ""
  | [JSValue.null] => ""
  | [JSValue.undef] => ""
  | [v] => jsToString v
  | JSValue.null :: rest => "," ++ jsArrJoin rest
  | JSValue.undef :: rest => "," ++ jsArrJoin rest
  | v :: rest => jsToString v ++ "," ++ jsArrJoin rest

end

def segToString : Seg → String
  | .name s => s
  | .idx n => toString n

/-- `formatError` (src/schema.js lines 94-97): destructures `code`,
`path`, `message` and `value` from the error record. -/
def formatError (e : ErrRecord) : String :=
  "[" ++ e.code ++ "] " ++ String.intercalate "." (e.path.map segToString) ++ ": "
    ++ jsToString ((lookupField e.extra "message").getD .undef)
    ++ ", received: " ++ jsToString ((lookupField e.extra "value").getD .undef)

/-- The `ValidationError` thrown by `assert`: its message and the error
list attached as `details`. -/
structure ThrownError where
  message : String
  details : List ErrRecord

/-- `createValidationError(errors)` (src/schema.js lines 79-87). -/
def createValidationError (errors : List ErrRecord) : ThrownError :=
  { message := String.intercalate "\n"
      (("Schema validation failed: " ++ toString errors.length ++ " errors found")
        :: errors.map formatError),
    details := errors }

/-- The object `{valid, value}` returned by a successful `assert`. -/
structure AssertOk where
  valid : Bool
  value : JSValue

/-- `assert(input)` (src/schema.js lines 55-65); a thrown error is an
`Except.error`. -/
def assert (fns : List Handler) (input : JSValue) : Except ThrownError AssertOk :=
  let r := validationPipeline fns input
  if r.valid then .ok { valid := r.valid, value := r.value }
  else .error (createValidationError r.errors)

/-- `test(input)` (src/schema.js lines 45-48). -/
def test (fns : List Handler) (input : JSValue) : Bool :=
  (validationPipeline fns input).valid

/-- Effect of one callback invocation on the current value alone. -/
def applyUpd : JSValue → HEvent → JSValue
  | _, .update newValue => newValue
  | v, .error _ _ => v

/-- The full ordered sequence of callback invocations a pipeline run
produces: each handler contributes its invocations once, in list order,
called on the value current when its turn comes. -/
def runTrace (fns : List Handler) (input : JSValue) : List HEvent :=
  match fns with
  | [] => []
  | fn :: rest => fn input ++ runTrace rest ((fn input).foldl applyUpd input)

def updateVal : HEvent → Option JSValue
  | .update v => some v
  | .error _ _ => none

/-- The value carried by the last `update` invocation of a trace, if any. -/
def lastUpdate (evs : List HEvent) : Option JSValue :=
  (evs.filterMap updateVal).getLast?

/-- The error records the executor's `error` closure builds from the
error invocations of a trace. -/
def errRecordsOf (evs : List HEvent) : List ErrRecord :=
  evs.filterMap fun ev =>
    match ev with
    | .error code ctx => some { code := code, path := ctx.path.getD [], extra := ctx.extra }
    | .update _ => none

/-- Two invocations of the same schema on the same input, in sequence;
each allocates its own value binding and errors accumulator. -/
def validateTwice (fns : List Handler) (input : JSValue) : PipelineResult × PipelineResult :=
  (validationPipeline fns input, validationPipeline fns input)

/-- The optional `message` field of an error record. -/
def errMessage (e : ErrRecord) : Option JSValue :=
  lookupField e.extra "message"

lemma foldl_applyEvent_fst (evs : List HEvent) :
    ∀ (v : JSValue) (es : List ErrRecord),
      (evs.foldl applyEvent (v, es)).1 = evs.foldl applyUpd v := by
  induction evs with
  | nil => intro v es; rfl
  | cons ev rest ih =>
      intro v es
      cases ev with
      | update w => simpa [applyEvent, applyUpd] using ih w es
      | error c ctx => simpa [applyEvent, applyUpd] using ih v _

lemma foldl_applyEvent_snd (evs : List HEvent) :
    ∀ (v : JSValue) (es : List ErrRecord),
      (evs.foldl applyEvent (v, es)).2 = es ++ errRecordsOf evs := by
  induction evs with
  | nil => intro v es; simp [errRecordsOf]
  | cons ev rest ih =>
      intro v es
      cases ev with
      | update w => simpa [applyEvent, errRecordsOf] using ih w es
      | error c ctx =>
          simp only [List.foldl_cons, applyEvent, errRecordsOf, List.filterMap_cons]
          rw [ih]
          simp [errRecordsOf]

lemma foldl_applyEvent_eq (evs : List HEvent) (v : JSValue) (es : List ErrRecord) :
    evs.foldl applyEvent (v, es) = (evs.foldl applyUpd v, es ++ errRecordsOf evs) := by
  rw [Prod.ext_iff]
  exact ⟨foldl_applyEvent_fst evs v es, foldl_applyEvent_snd evs v es⟩

lemma errRecordsOf_append (l₁ l₂ : List HEvent) :
    errRecordsOf (l₁ ++ l₂) = errRecordsOf l₁ ++ errRecordsOf l₂ := by
  simp [errRecordsOf]

/-- The executor is exactly the trace semantics: the final value folds
the update invocations of the trace, and the accumulator extends by the
error records of the trace. -/
lemma execLoop_eq_trace (fns : List Handler) :
    ∀ (v : JSValue) (es : List ErrRecord),
      execLoop fns (v, es) =
        ((runTrace fns v).foldl applyUpd v, es ++ errRecordsOf (runTrace fns v)) := by
  induction fns with
  | nil => intro v es; simp [execLoop, runTrace, errRecordsOf]
  | cons fn rest ih =>
      intro v es
      show execLoop rest ((fn v).foldl applyEvent (v, es)) = _
      rw [foldl_applyEvent_eq, ih]
      simp [runTrace, List.foldl_append, errRecordsOf_append]

lemma validationPipeline_eq_trace (fns : List Handler) (input : JSValue) :
    validationPipeline fns input =
      { value := (runTrace fns input).foldl applyUpd input,
        valid := (errRecordsOf (runTrace fns input)).isEmpty,
        errors := errRecordsOf (runTrace fns input) } := by
  unfold validationPipeline
  rw [execLoop_eq_trace]
  simp

lemma execLoop_append (fns gs : List Handler) :
    ∀ st, execLoop (fns ++ gs) st = execLoop gs (execLoop fns st) := by
  induction fns with
  | nil => intro st; rfl
  | cons fn rest ih => intro st; exact ih _

lemma isEmpty_append (l₁ l₂ : List ErrRecord) :
    (l₁ ++ l₂).isEmpty = (l₁.isEmpty && l₂.isEmpty) := by
  cases l₁ <;> simp [List.isEmpty]

lemma getLast?_getD_cons {α : Type} (l : List α) (u v : α) :
    ((u :: l).getLast?).getD v = (l.getLast?).getD u := by
  rcases l with _ | ⟨a, l'⟩
  · rfl
  · rw [List.getLast?_cons_cons]
    have hne : (a :: l') ≠ [] := by simp
    obtain ⟨x, hx⟩ := Option.isSome_iff_exists.mp (List.getLast?_isSome.mpr hne)
    rw [hx]; rfl

lemma foldl_applyUpd_eq_lastUpdate (evs : List HEvent) :
    ∀ v : JSValue, evs.foldl applyUpd v = (lastUpdate evs).getD v := by
  induction evs with
  | nil => intro v; rfl
  | cons ev rest ih =>
      intro v
      cases ev with
      | update u =>
          simp only [List.foldl_cons, applyUpd, lastUpdate, List.filterMap_cons, updateVal]
          rw [ih u, getLast?_getD_cons]
          rfl
      | error c ctx =>
          simpa [applyUpd, lastUpdate, updateVal, List.filterMap_cons] using ih v

/-- Errors of a one-handler pipeline are the records of the handler's
own invocations. -/
lemma singleton_pipeline_errors (h : Handler) (input : JSValue) :
    (validationPipeline [h] input).errors = errRecordsOf (h input) := by
  rw [validationPipeline_eq_trace]
  simp [runTrace]

lemma mem_errRecordsOf {e : ErrRecord} {evs : List HEvent} (hmem : e ∈ errRecordsOf evs) :
    ∃ c ctx, HEvent.error c ctx ∈ evs ∧
      e = { code := c, path := ctx.path.getD [], extra := ctx.extra } := by
  rcases List.mem_filterMap.mp hmem with ⟨ev, hev, heq⟩
  cases ev with
  | update w => simp at heq
  | error c ctx =>
      refine ⟨c, ctx, hev, ?_⟩
      simp only at heq
      injection heq with h
      exact h.symm

lemma foldl_applyUpd_map_error (errs : List ErrRecord) :
    ∀ v : JSValue,
      ((errs.map fun e => HEvent.error e.code ⟨some e.path, e.extra⟩).foldl applyUpd v) = v := by
  induction errs with
  | nil => intro v; rfl
  | cons e rest ih => intro v; simpa [applyUpd] using ih v

lemma errRecordsOf_map_error (errs : List ErrRecord) :
    errRecordsOf (errs.map fun e => HEvent.error e.code ⟨some e.path, e.extra⟩) = errs := by
  induction errs with
  | nil => rfl
  | cons e rest ih => simp [errRecordsOf, List.filterMap_cons] at ih ⊢; exact ih

/-- Invoking a schema as a single pipeline step reproduces the schema's
own pipeline result: the forwarded errors re-enter the outer accumulator
unchanged (code re-attached, path preserved) and the forwarded final
value becomes the outer value. -/
lemma schema_as_single_step (fns : List Handler) (v : JSValue) :
    validationPipeline [schemaHandler fns] v = validationPipeline fns v := by
  have h1 : execLoop [schemaHandler fns] (v, []) =
      ((validationPipeline fns v).value, (validationPipeline fns v).errors) := by
    show (schemaHandler fns v).foldl applyEvent (v, []) = _
    unfold schemaHandler
    rw [List.foldl_append, foldl_applyEvent_eq _ v [], foldl_applyUpd_map_error, errRecordsOf_map_error]
    simp [applyEvent]
  have hvalid : (validationPipeline fns v).valid = (validationPipeline fns v).errors.isEmpty := rfl
  show ({ value := (execLoop [schemaHandler fns] (v, [])).1,
          valid := (execLoop [schemaHandler fns] (v, [])).2.isEmpty,
          errors := (execLoop [schemaHandler fns] (v, [])).2 } : PipelineResult) =
      validationPipeline fns v
  rw [h1, ← hvalid]

lemma mem_schemaHandler_error {c : String} {ctx : ErrContext} {fns : List Handler}
    {input : JSValue} (hmem : HEvent.error c ctx ∈ schemaHandler fns input) :
    ∃ e ∈ (validationPipeline fns input).errors,
      c = e.code ∧ ctx = ⟨some e.path, e.extra⟩ := by
  unfold schemaHandler at hmem
  rcases List.mem_append.mp hmem with hmap | hupd
  · rcases List.mem_map.mp hmap with ⟨e, he, heq⟩
    injection heq with h1 h2
    exact ⟨e, he, h1.symm, h2.symm⟩
  · simp at hupd

/-- Unfolding of the `key` combinator as a list of callback invocations:
each nested error travels with `name` prepended to its path, then the
outer value is rebuilt with `name` rebound to the nested final value. -/
lemma keyHandler_eq (nm : String) (fns : List Handler) (value : JSValue) :
    keyHandler nm fns value =
      ((validationPipeline fns (jsGet value nm)).errors.map fun e =>
          HEvent.error e.code ⟨some (Seg.name nm :: e.path), e.extra⟩)
        ++ [HEvent.update (jsSetField value nm (validationPipeline fns (jsGet value nm)).value)] := by
  unfold keyHandler schemaHandler
  simp [List.map_map, Function.comp]

lemma execLoopAsync_eq (fns : List Handler) :
    ∀ st, Id.run (execLoopAsync fns st) = execLoop fns st := by
  induction fns with
  | nil => intro st; rfl
  | cons fn rest ih => intro st; exact ih _

lemma itemsApply_map_error (errs : List ErrRecord) (index : Nat) (items : JSValue) :
    ∀ out : List HEvent,
      ((errs.map fun e => HEvent.error e.code ⟨some e.path, e.extra⟩).foldl
          (itemsApplyEvent index) (items, out)) =
        (items, out ++ errs.map fun e =>
          HEvent.error e.code ⟨some (Seg.idx index :: e.path), e.extra⟩) := by
  induction errs with
  | nil => intro out; simp
  | cons e rest ih =>
      intro out
      simp only [List.map_cons, List.foldl_cons, itemsApplyEvent]
      rw [ih]
      simp

/-- One nested-schema invocation inside the `items` loop, folded into the
loop state: the nested errors come out with the current index prepended,
then one outer update carries the sequence with the current slot replaced
by the nested final value, which also becomes the loop's new sequence. -/
lemma itemsStep_eq (fns : List Handler) (items : JSValue) (index : Nat) :
    (schemaHandler fns (jsIdx items index)).foldl (itemsApplyEvent index) (items, []) =
      (jsSetIdx items index (validationPipeline fns (jsIdx items index)).value,
       ((validationPipeline fns (jsIdx items index)).errors.map fun e =>
           HEvent.error e.code ⟨some (Seg.idx index :: e.path), e.extra⟩)
         ++ [HEvent.update (jsSetIdx items index (validationPipeline fns (jsIdx items index)).value)]) := by
  unfold schemaHandler
  rw [List.foldl_append, itemsApply_map_error]
  simp [itemsApplyEvent]

/-- Unfolding of one iteration of the `items` loop at an in-range index. -/
lemma itemsLoop_step (fns : List Handler) (fuel : Nat) (items : JSValue) (index : Nat)
    (h : index < jsLen items) :
    itemsLoop fns (fuel + 1) items index =
      ((validationPipeline fns (jsIdx items index)).errors.map fun e =>
          HEvent.error e.code ⟨some (Seg.idx index :: e.path), e.extra⟩)
        ++ [HEvent.update (jsSetIdx items index (validationPipeline fns (jsIdx items index)).value)]
        ++ itemsLoop fns fuel
             (jsSetIdx items index (validationPipeline fns (jsIdx items index)).value)
             (index + 1) := by
  rw [itemsLoop, if_pos h, itemsStep_eq]

lemma itemsLoop_error_path {fns : List Handler} :
    ∀ (fuel : Nat) (items : JSValue) (index : Nat) (c : String) (ctx : ErrContext),
      HEvent.error c ctx ∈ itemsLoop fns fuel items index →
        ∃ i rest, ctx.path = some (Seg.idx i :: rest) := by
  intro fuel
  induction fuel with
  | zero => intro items index c ctx hmem; simp [itemsLoop] at hmem
  | succ fuel ih =>
      intro items index c ctx hmem
      rw [itemsLoop] at hmem
      by_cases h : index < jsLen items
      · rw [if_pos h, itemsStep_eq] at hmem
        rcases List.mem_append.mp hmem with hfst | hrec
        · rcases List.mem_append.mp hfst with hmap | hupd
          · rcases List.mem_map.mp hmap with ⟨e, _, heq⟩
            injection heq with h1 h2
            exact ⟨index, e.path, by rw [← h2]⟩
          · simp at hupd
        · exact ih _ _ c ctx hrec
      · rw [if_neg h] at hmem
        simp at hmem

lemma set_getD_ne {α : Type} :
    ∀ (l : List α) (i j : Nat) (x d : α), i ≠ j → (l.set i x).getD j d = l.getD j d := by
  intro l
  induction l with
  | nil => intros; rfl
  | cons a t ih =>
      intro i j x d hne
      cases i with
      | zero =>
          cases j with
          | zero => exact absurd rfl hne
          | succ j' => simp [List.getD]
      | succ i' =>
          cases j with
          | zero => rfl
          | succ j' =>
              have : i' ≠ j' := fun hh => hne (by rw [hh])
              simpa [List.getD] using ih i' j' x d this

lemma mem_runTrace {ev : HEvent} :
    ∀ (fns : List Handler) (input : JSValue), ev ∈ runTrace fns input →
      ∃ fn ∈ fns, ∃ v, ev ∈ fn v := by
  intro fns
  induction fns with
  | nil => intro input hmem; simp [runTrace] at hmem
  | cons fn rest ih =>
      intro input hmem
      rw [runTrace] at hmem
      rcases List.mem_append.mp hmem with hfst | hrec
      · exact ⟨fn, List.mem_cons_self fn rest, input, hfst⟩
      · rcases ih _ hrec with ⟨g, hg, v, hv⟩
        exact ⟨g, List.mem_cons_of_mem fn hg, v, hv⟩

lemma runTrace_no_errors :
    ∀ (fns : List Handler), (∀ fn ∈ fns, ∀ v, errRecordsOf (fn v) = []) →
      ∀ input, errRecordsOf (runTrace fns input) = [] := by
  intro fns
  induction fns with
  | nil => intro _ input; simp [runTrace, errRecordsOf]
  | cons fn rest ih =>
      intro hno input
      rw [runTrace, errRecordsOf_append, hno fn (List.mem_cons_self fn rest) input,
        ih (fun g hg v => hno g (List.mem_cons_of_mem fn hg) v) ((fn input).foldl applyUpd input)]
      rfl

/-- A leaf handler that replaces the value by itself (the `mapAdapter`
shape with an identity map), used as a concrete contract-obeying step. -/
def updateIdHandler : Handler := fun v => [.update v]

/-- The `isType(Object)` leaf: no callback on objects, otherwise one
`error("is.type", {message, expectedType, value})` invocation. -/
def typeErrorHandler : Handler := fun v =>
  match v with
  | .obj _ => []
  | _ => [.error "is.type"
      ⟨none, [("message", .str "wrong type: expected object"),
              ("expectedType", .str "object"), ("value", v)]⟩]

/-- Claim C1: for every handler list and input, `valid` is true iff the
`errors` array is empty; in particular a run in which no handler invokes
`error` yields `valid = true` and empty `errors`. -/
theorem valid_iff_errors_empty (fns : List Handler) (input : JSValue) :
    ((validationPipeline fns input).valid = true ↔ (validationPipeline fns input).errors = []) ∧
    ((∀ fn ∈ fns, ∀ v, errRecordsOf (fn v) = []) →
      (validationPipeline fns input).valid = true ∧ (validationPipeline fns input).errors = []) := by
  constructor
  · rw [validationPipeline_eq_trace]
    simp [List.isEmpty_iff]
  · intro hno
    rw [validationPipeline_eq_trace, runTrace_no_errors fns hno input]
    exact ⟨rfl, rfl⟩

/-- Witness for C1 at a two-step pipeline with no `error` invocations. -/
theorem valid_iff_errors_empty_witness :
    (validationPipeline [updateIdHandler] (.num 42)).valid = true ∧
    (validationPipeline [updateIdHandler] (.num 42)).errors = [] :=
  (valid_iff_errors_empty [updateIdHandler] (.num 42)).2 (by
    intro fn hfn v
    rw [List.mem_singleton] at hfn
    subst hfn
    rfl)

/-- Claim C2: the returned `value` is exactly the result of folding every
`update` invocation of the run over the input — equivalently the value
of the last `update`, or the input when none occurred — with no
dependence on whether errors were reported (no rollback on failure). -/
theorem value_reflects_updates (fns : List Handler) (input : JSValue) :
    (validationPipeline fns input).value = (runTrace fns input).foldl applyUpd input ∧
    (validationPipeline fns input).value = (lastUpdate (runTrace fns input)).getD input := by
  rw [validationPipeline_eq_trace]
  exact ⟨rfl, foldl_applyUpd_eq_lastUpdate _ input⟩

/-- Claim C3: the executor processes the handler list in order, each
handler exactly once: splitting the list anywhere shows the suffix runs
on the prefix's final value with the error lists concatenated, so errors
never short-circuit later handlers; and the result is assembled from the
complete trace of all handler invocations. -/
theorem handlers_run_in_order (fns gs : List Handler) (input : JSValue) :
    validationPipeline (fns ++ gs) input =
      { value := (validationPipeline gs (validationPipeline fns input).value).value,
        valid := ((validationPipeline fns input).valid &&
                  (validationPipeline gs (validationPipeline fns input).value).valid),
        errors := (validationPipeline fns input).errors ++
                  (validationPipeline gs (validationPipeline fns input).value).errors } ∧
    validationPipeline fns input =
      { value := (runTrace fns input).foldl applyUpd input,
        valid := (errRecordsOf (runTrace fns input)).isEmpty,
        errors := errRecordsOf (runTrace fns input) } := by
  refine ⟨?_, validationPipeline_eq_trace fns input⟩
  rw [validationPipeline_eq_trace fns input,
    validationPipeline_eq_trace gs ((runTrace fns input).foldl applyUpd input)]
  unfold validationPipeline
  rw [execLoop_append, execLoop_eq_trace fns input []]
  simp only [List.nil_append]
  rw [execLoop_eq_trace gs _ _]
  simp [isEmpty_append]

/-- Claim C6: the asynchronous executor, which awaits each handler before
invoking the next (modelled by sequential monadic binds), returns the
same `{value, valid, errors}` as the synchronous executor. -/
theorem validateAsync_eq_validate (fns : List Handler) (input : JSValue) :
    Id.run (validationPipelineAsync fns input) = validationPipeline fns input := by
  show ({ value := (Id.run (execLoopAsync fns (input, []))).1,
          valid := (Id.run (execLoopAsync fns (input, []))).2.isEmpty,
          errors := (Id.run (execLoopAsync fns (input, []))).2 } : PipelineResult) = _
  rw [execLoopAsync_eq]
  rfl

/-- Claim C9: two invocations of `validate` on the same input produce
identical results; each invocation's state starts from a fresh value
binding and a fresh, empty errors accumulator, so nothing carries over. -/
theorem validate_pure_across_invocations (fns : List Handler) (input : JSValue) :
    (validateTwice fns input).1 = (validateTwice fns input).2 ∧
    (validateTwice fns input).1 = validationPipeline fns input ∧
    validationPipeline fns input =
      (let st := execLoop fns (input, ([] : List ErrRecord));
       { value := st.1, valid := st.2.isEmpty, errors := st.2 }) :=
  ⟨rfl, rfl, rfl⟩

/-- Claim C10: wrapping a schema in another schema is transparent —
running the wrapper pipeline equals running the wrapped pipeline, because
the schema-as-handler forwards every inner error (code stripped and
re-attached, path preserved) and forwards the inner final value to the
outer `update`. -/
theorem schema_wrapping_transparent (fns : List Handler) (v : JSValue) :
    validationPipeline [schemaHandler fns] v = validationPipeline fns v :=
  schema_as_single_step fns v

lemma keyHandler_error_ctx {nm : String} {fns : List Handler} {value : JSValue}
    {c : String} {ctx : ErrContext} (hmem : HEvent.error c ctx ∈ keyHandler nm fns value) :
    ∃ e ∈ (validationPipeline fns (jsGet value nm)).errors,
      c = e.code ∧ ctx = ⟨some (Seg.name nm :: e.path), e.extra⟩ := by
  rw [keyHandler_eq] at hmem
  rcases List.mem_append.mp hmem with hmap | hupd
  · rcases List.mem_map.mp hmap with ⟨e, he, heq⟩
    injection heq with h1 h2
    exact ⟨e, he, h1.symm, h2.symm⟩
  · simp at hupd

lemma key_pipeline_error_path {nm : String} {fns : List Handler} {value : JSValue} :
    ∀ e ∈ (validationPipeline [keyHandler nm fns] value).errors,
      ∃ e' ∈ (validationPipeline fns (jsGet value nm)).errors,
        e.path = Seg.name nm :: e'.path := by
  intro e he
  rw [singleton_pipeline_errors] at he
  rcases mem_errRecordsOf he with ⟨c, ctx, hmem, heq⟩
  rcases keyHandler_error_ctx hmem with ⟨e', he', _, hctx⟩
  refine ⟨e', he', ?_⟩
  rw [heq, hctx]
  rfl

/-- Claim C4: a `key(name, ...)` step that produces an error yields an
error whose path has `name` as its first element — both at the level of
the callback invocations it performs and in the records a pipeline built
from it returns — and nesting `key(a, key(b, ...))` yields records whose
path begins with the two names outermost-first. -/
theorem key_error_path_head (nm : String) (fns : List Handler) (value : JSValue) :
    (∀ c ctx, HEvent.error c ctx ∈ keyHandler nm fns value →
        ∃ rest, ctx.path = some (Seg.name nm :: rest)) ∧
    (∀ e ∈ (validationPipeline [keyHandler nm fns] value).errors,
        ∃ rest, e.path = Seg.name nm :: rest) ∧
    (∀ b gs, fns = [keyHandler b gs] →
        ∀ e ∈ (validationPipeline [keyHandler nm fns] value).errors,
          ∃ rest, e.path = Seg.name nm :: Seg.name b :: rest) := by
  refine ⟨?_, ?_, ?_⟩
  · intro c ctx hmem
    rcases keyHandler_error_ctx hmem with ⟨e, _, _, hctx⟩
    exact ⟨e.path, by rw [hctx]⟩
  · intro e he
    rcases key_pipeline_error_path e he with ⟨e', _, hpath⟩
    exact ⟨e'.path, hpath⟩
  · intro b gs hfns e he
    subst hfns
    rcases key_pipeline_error_path e he with ⟨e', he', hpath⟩
    rcases key_pipeline_error_path e' he' with ⟨e'', _, hpath'⟩
    exact ⟨e''.path, by rw [hpath, hpath']⟩

/-- Witness for C4: a type-check error under `key("foo", ...)` on
`{foo: 42}` carries a path headed by `"foo"`. -/
theorem key_error_path_head_witness :
    ∃ rest, ({ code := "is.type", path := [Seg.name "foo"],
               extra := [("message", .str "wrong type: expected object"),
                         ("expectedType", .str "object"),
                         ("value", .num 42)] } : ErrRecord).path = Seg.name "foo" :: rest :=
  (key_error_path_head "foo" [typeErrorHandler] (.obj [("foo", .num 42)])).2.1 _ (by
    rw [show (validationPipeline [keyHandler "foo" [typeErrorHandler]]
          (.obj [("foo", .num 42)])).errors =
        [{ code := "is.type", path := [Seg.name "foo"],
           extra := [("message", .str "wrong type: expected object"),
                     ("expectedType", .str "object"),
                     ("value", .num 42)] }] from rfl]
    exact List.mem_singleton.mpr rfl)

/-- Claim C5: `items(...)` reports an error arising at an element with a
path headed by that element's index; one loop iteration at an in-range
index runs the nested schema on the current element, emits its errors
with the index prepended, emits the update carrying the sequence with
that slot replaced, and recurses on the updated sequence — so updates are
visible to all later indices; and replacing one slot leaves every other
slot, in particular every already-processed one, unchanged. -/
theorem items_error_path_and_visibility (fns : List Handler) (l : List JSValue) :
    (∀ e ∈ (validationPipeline [itemsHandler fns] (.arr l)).errors,
        ∃ i rest, e.path = Seg.idx i :: rest) ∧
    (∀ (fuel : Nat) (items : JSValue) (index : Nat), index < jsLen items →
        itemsLoop fns (fuel + 1) items index =
          ((validationPipeline fns (jsIdx items index)).errors.map fun e =>
              HEvent.error e.code ⟨some (Seg.idx index :: e.path), e.extra⟩)
            ++ [HEvent.update (jsSetIdx items index (validationPipeline fns (jsIdx items index)).value)]
            ++ itemsLoop fns fuel
                 (jsSetIdx items index (validationPipeline fns (jsIdx items index)).value)
                 (index + 1)) ∧
    (∀ (elems : List JSValue) (index j : Nat) (x : JSValue), j ≠ index →
        jsIdx (jsSetIdx (.arr elems) index x) j = jsIdx (.arr elems) j) := by
  refine ⟨?_, fun fuel items index h => itemsLoop_step fns fuel items index h, ?_⟩
  · intro e he
    rw [singleton_pipeline_errors] at he
    rcases mem_errRecordsOf he with ⟨c, ctx, hmem, heq⟩
    rcases itemsLoop_error_path _ _ _ c ctx hmem with ⟨i, rest, hpath⟩
    exact ⟨i, rest, by rw [heq, hpath]; rfl⟩
  · intro elems index j x hj
    show (elems.set index x).getD j JSValue.undef = elems.getD j JSValue.undef
    exact set_getD_ne elems index j x JSValue.undef (fun hh => hj hh.symm)

/-- Witness for C5: one `items` iteration over `[1]` with a type-check,
and slot replacement leaving the other slot untouched. -/
theorem items_error_path_and_visibility_witness :
    (itemsLoop [typeErrorHandler] (0 + 1) (.arr [.num 1]) 0 =
      ((validationPipeline [typeErrorHandler] (jsIdx (.arr [.num 1]) 0)).errors.map fun e =>
          HEvent.error e.code ⟨some (Seg.idx 0 :: e.path), e.extra⟩)
        ++ [HEvent.update (jsSetIdx (.arr [.num 1]) 0
              (validationPipeline [typeErrorHandler] (jsIdx (.arr [.num 1]) 0)).value)]
        ++ itemsLoop [typeErrorHandler] 0
             (jsSetIdx (.arr [.num 1]) 0
               (validationPipeline [typeErrorHandler] (jsIdx (.arr [.num 1]) 0)).value) (0 + 1)) ∧
    jsIdx (jsSetIdx (.arr [.num 1, .num 2]) 1 (.num 9)) 0 = jsIdx (.arr [.num 1, .num 2]) 0 :=
  ⟨(items_error_path_and_visibility [typeErrorHandler] [.num 1]).2.1 0 (.arr [.num 1]) 0 (by decide),
   (items_error_path_and_visibility [typeErrorHandler] [.num 1]).2.2 [.num 1, .num 2] 1 0 (.num 9)
     (by decide)⟩

/-- Claim C7: `assert` returns `{valid: true, value}` exactly when the
pipeline is valid; otherwise it throws a `ValidationError` whose message
is the error count header followed by one formatted line per error
(code, dotted path, message, received value) and whose `details` is the
full error list. -/
theorem assert_ok_iff_valid (fns : List Handler) (input : JSValue) :
    ((validationPipeline fns input).valid = true ↔
      assert fns input = .ok { valid := true, value := (validationPipeline fns input).value }) ∧
    ((validationPipeline fns input).valid = false →
      assert fns input = .error
        { message := String.intercalate "\n"
            (("Schema validation failed: "
                ++ toString (validationPipeline fns input).errors.length ++ " errors found")
              :: (validationPipeline fns input).errors.map formatError),
          details := (validationPipeline fns input).errors }) := by
  constructor
  · constructor
    · intro h
      simp only [assert]
      rw [if_pos h, h]
    · intro h
      by_cases hv : (validationPipeline fns input).valid = true
      · exact hv
      · exfalso
        have habort : assert fns input =
            .error (createValidationError (validationPipeline fns input).errors) := by
          simp only [assert]
          rw [if_neg hv]
        rw [habort] at h
        exact Except.noConfusion h
  · intro h
    simp only [assert]
    rw [if_neg (by rw [h]; exact Bool.false_ne_true)]
    rfl

/-- Witness for C7 at an invalid input: the thrown fault carries the
formatted message and the error list as details. -/
theorem assert_ok_iff_valid_witness :
    assert [typeErrorHandler] (.num 42) = .error
      { message := String.intercalate "\n"
          (("Schema validation failed: "
              ++ toString (validationPipeline [typeErrorHandler] (.num 42)).errors.length
              ++ " errors found")
            :: (validationPipeline [typeErrorHandler] (.num 42)).errors.map formatError),
        details := (validationPipeline [typeErrorHandler] (.num 42)).errors } :=
  (assert_ok_iff_valid [typeErrorHandler] (.num 42)).2 rfl

/-- A handler that calls `error` with a non-empty code and an empty
context object — it obeys the stated handler contract. -/
def bareErrorHandler : Handler := fun _ => [.error "some.code" ⟨none, []⟩]

/-- Counterexample to C8 as stated: with a contract-obeying handler whose
context carries no `message`, the top-level error has its code populated
but no `message` field at all — the executor never adds one. -/
theorem error_message_unpopulated_cex :
    (validationPipeline [bareErrorHandler] (.num 0)).errors.map (fun e => e.code) = ["some.code"] ∧
    (validationPipeline [bareErrorHandler] (.num 0)).errors.map errMessage = [none] :=
  ⟨rfl, rfl⟩

/-- The `required()` leaf shape: an `error` invocation whose context
carries a `message` (and the received value). -/
def messageErrorHandler : Handler := fun v =>
  [.error "required" ⟨none, [("message", .str "value is required"), ("value", v)]⟩]

/-- Claim C8 (amended): if every handler calls `error` with a non-empty
code and a context object that includes a `message` field, then every
error returned from a top-level validate has a non-empty `code` and a
present `message`; `path` is always present because the executor defaults
it to the empty list. -/
theorem errors_populated_under_message_contract (fns : List Handler) (input : JSValue)
    (hcontract : ∀ fn ∈ fns, ∀ v c ctx, HEvent.error c ctx ∈ fn v →
        c ≠ "" ∧ (lookupField ctx.extra "message").isSome = true) :
    ∀ e ∈ (validationPipeline fns input).errors,
      e.code ≠ "" ∧ (errMessage e).isSome = true := by
  intro e he
  have he' : e ∈ errRecordsOf (runTrace fns input) := by
    rw [validationPipeline_eq_trace] at he
    exact he
  rcases mem_errRecordsOf he' with ⟨c, ctx, hmem, heq⟩
  rcases mem_runTrace fns input hmem with ⟨fn, hfn, v, hv⟩
  rcases hcontract fn hfn v c ctx hv with ⟨hc, hm⟩
  subst heq
  exact ⟨hc, hm⟩

/-- Witness for C8 (amended) at the `required()`-shaped handler. -/
theorem errors_populated_witness :
    ({ code := "required", path := [],
       extra := [("message", .str "value is required"), ("value", .num 0)] } : ErrRecord).code ≠ "" ∧
    (errMessage { code := "required", path := [],
                  extra := [("message", .str "value is required"), ("value", .num 0)] }).isSome
      = true :=
  errors_populated_under_message_contract [messageErrorHandler] (.num 0)
    (by
      intro fn hfn v c ctx hev
      rw [List.mem_singleton] at hfn
      subst hfn
      simp only [messageErrorHandler, List.mem_singleton] at hev
      injection hev with h1 h2
      subst h1
      subst h2
      exact ⟨by decide, rfl⟩)
    _
    (by
      rw [show (validationPipeline [messageErrorHandler] (.num 0)).errors =
          [{ code := "required", path := [],
             extra := [("message", .str "value is required"), ("value", .num 0)] }] from rfl]
      exact List.mem_singleton.mpr rfl)

end SchemaFns
